import Mathlib

/-!
Verification of the pyramid maximum-sum program (`src/main.cpp`).

The program reads a triangular grid of integers, builds a DAG (vertex 0 is a
synthetic source, the last vertex a synthetic sink; a grid cell whose value is
prime receives no incoming edges), topologically sorts it by a recursive DFS,
relaxes negated edge weights in that order, and finally scans the `sum` array
from the highest vertex id downward, printing the negation of the first entry
that differs from `INT_MAX` (or "does not exist" when all entries are
`INT_MAX`).

The definitions below are a shallow embedding of that code: C `int` values are
modelled as `Int` (with the literal `INT_MAX` sentinel kept, as in the code),
the per-vertex adjacency lists are stored as one flat edge list in insertion
order (`edgeList g v` recovers vertex `v`'s list in the order the code built
it), the recursive DFS takes an explicit fuel argument (`vertexAmount` at each
top-level call, which never runs out on the graphs the builder produces), and
the result of `maximumSum` is `some s` when the program prints
"Maximum Sum: s", `none` when it prints "Maximum sum does not exist.".
-/

/-- Trial-division loop of `isPrime` (`for (int i = 5; i * i <= num; i += 6)`),
on the nonnegative range the code reaches it with. -/
def trialDiv (num : Nat) (i : Nat) : Bool :=
  if h : i * i ≤ num then
    if num % i = 0 ∨ num % (i + 2) = 0 then false
    else trialDiv num (i + 6)
  else true
termination_by num + 1 - i
decreasing_by
  rcases Nat.eq_zero_or_pos i with h0 | h0
  · subst h0; omega
  · have hi : i ≤ i * i := Nat.le_mul_of_pos_left i h0
    omega

/-- `bool isPrime(int num)` from `src/main.cpp` (lines 140-161). -/
def isPrime (num : Int) : Bool :=
  if num ≤ 1 then false
  else if num ≤ 3 then true
  else if num % 2 = 0 ∨ num % 3 = 0 then false
  else trialDiv num.toNat 5

/-- The `INT_MAX` sentinel used by `DAG::maximumSum`. -/
def INT_MAX : Int := 2147483647

/-- The graph: `vertexAmount` plus the edges in insertion order.  An edge is
`(source, destination, weight)` with the weight already negated, exactly as
`DAG::addEdge` stores it. -/
structure DAG where
  vertexAmount : Nat
  edges : List (Nat × Nat × Int)
deriving DecidableEq

/-- `DAG::addEdge`: append `(source, destination, -positiveWeight)`. -/
def addEdge (g : DAG) (source destination : Nat) (positiveWeight : Int) : DAG :=
  { g with edges := g.edges ++ [(source, destination, -positiveWeight)] }

/-- The adjacency list of `v` (the code's `edgeList[v]`), in insertion order. -/
def edgeList (g : DAG) (v : Nat) : List (Nat × Int) :=
  g.edges.filterMap (fun e => if e.1 = v then some e.2 else none)

/-- `NSum` as computed by the loop at the start of `readInput`:
`NSum = 1 + 2 + ... + N`. -/
def NSum : Nat → Nat
  | 0 => 0
  | n + 1 => NSum n + (n + 1)

/-- Vertex id of grid cell `(i, j)` (row `i ≥ 1`, position `0 ≤ j < i`):
rows are laid out consecutively after the source vertex `0`. -/
def vertexId (i j : Nat) : Nat := NSum (i - 1) + 1 + j

/-- One iteration of the inner loop of `readInput` (lines 235-255): for the
cell at row `i`, position `j`, vertex id `index`, holding `num`. -/
def processCell (g : DAG) (N i j index : Nat) (num : Int) : DAG :=
  if isPrime num = false then
    let g1 :=
      if j = 0 then addEdge g (index - i + 1) index num
      else if j + 1 = i then addEdge g (index - i) index num
      else addEdge (addEdge g (index - i) index num) (index - i + 1) index num
    if i = N then addEdge g1 index (index + i - j) 0 else g1
  else g

/-- The inner `for (j...)` loop of `readInput` over one row's values. -/
def processCells (g : DAG) (N i j index : Nat) : List Int → DAG
  | [] => g
  | num :: rest => processCells (processCell g N i j index num) N i (j + 1) (index + 1) rest

/-- The outer `for (i = 2; i <= N; ...)` loop of `readInput`. -/
def processRows (g : DAG) (N i index : Nat) : List (List Int) → DAG
  | [] => g
  | row :: rest => processRows (processCells g N i 0 index row) N (i + 1) (index + row.length) rest

/-- `readInput` (file variant, lines 207-259; the terminal variant builds the
identical graph): allocate `NSum + 2` vertices; if the row-1 value is prime,
return at once (no edges, deeper rows unread); otherwise add the source edge
and process rows `2..N`. -/
def readInput (rows : List (List Int)) : DAG :=
  let g0 : DAG := { vertexAmount := NSum rows.length + 2, edges := [] }
  match rows with
  | [] => g0
  | r1 :: rest =>
    if isPrime r1.headI = true then g0
    else processRows (addEdge g0 0 1 r1.headI) rows.length 2 2 rest

/-- Helper for the DFS: iterate over an adjacency list, recursing (via `f`)
into each not-yet-visited destination, exactly as the `for` loop inside
`DAG::topologicalSortRecursive` does.  The state is `(visited, stack)`. -/
def visitList (f : Nat → List Nat × List Nat → List Nat × List Nat) :
    List (Nat × Int) → List Nat × List Nat → List Nat × List Nat
  | [], acc => acc
  | e :: rest, acc =>
    if e.1 ∈ acc.1 then visitList f rest acc
    else visitList f rest (f e.1 acc)

/-- `DAG::topologicalSortRecursive` (lines 75-88): mark `v` visited, recurse
into unvisited successors, then push `v`.  The extra fuel argument bounds the
recursion depth; every edge of a built graph increases the vertex id, so fuel
`vertexAmount` (supplied at each top-level call) never runs out. -/
def topologicalSortRecursive (g : DAG) : Nat → Nat → List Nat × List Nat → List Nat × List Nat
  | 0, _, acc => acc
  | fuel + 1, v, acc =>
    let acc2 := visitList (fun w a => topologicalSortRecursive g fuel w a)
      (edgeList g v) (v :: acc.1, acc.2)
    (acc2.1, v :: acc2.2)

/-- The driver loop in `DAG::maximumSum` (lines 98-102): start a DFS from each
unvisited vertex id in increasing order. -/
def topoFrom (g : DAG) : List Nat × List Nat → List Nat → List Nat × List Nat
  | acc, [] => acc
  | acc, i :: rest =>
    if i ∈ acc.1 then topoFrom g acc rest
    else topoFrom g (topologicalSortRecursive g g.vertexAmount i acc) rest

/-- The vertex order in which `DAG::maximumSum` pops the stack: head first. -/
def topologicalSort (g : DAG) : List Nat :=
  (topoFrom g ([], []) (List.range g.vertexAmount)).2

/-- The initial `sum` array: `INT_MAX` everywhere, `0` at the source. -/
def initSum : Nat → Int := fun v => if v = 0 then 0 else INT_MAX

/-- One pop of the `while` loop (lines 111-125): if `sum[u]` is not `INT_MAX`,
relax every outgoing edge of `u` (reading the live array, as the code does). -/
def relaxVertex (g : DAG) (s : Nat → Int) (u : Nat) : Nat → Int :=
  if s u = INT_MAX then s
  else (edgeList g u).foldl
    (fun t e => if t e.1 > t u + e.2 then Function.update t e.1 (t u + e.2) else t) s

/-- The whole relaxation pass, processing vertices in stack-pop order. -/
def relaxAll (g : DAG) : Nat → Int :=
  (topologicalSort g).foldl (relaxVertex g) initSum

/-- The final scan (lines 128-134): return the negation of the first `sum`
entry different from `INT_MAX`, walking the given id list. -/
def extractSum (s : Nat → Int) : List Nat → Option Int
  | [] => none
  | i :: rest => if s i ≠ INT_MAX then some (-(s i)) else extractSum s rest

/-- `DAG::maximumSum` as a function: `some s` when the program prints
"Maximum Sum: s", `none` for "Maximum sum does not exist.". -/
def maximumSum (g : DAG) : Option Int :=
  extractSum (relaxAll g) (List.range g.vertexAmount).reverse

/-- A suffix of the row list starting at row `i`: row lengths `i, i+1, ...`. -/
def shapeFrom (i : Nat) (rs : List (List Int)) : Prop :=
  ∀ k, k < rs.length → (rs.getD k []).length = i + k

/-- The rows form a triangular pyramid: row `i` (1-based) has `i` values. -/
def pyramidShape (rows : List (List Int)) : Prop :=
  shapeFrom 1 rows

instance (i : Nat) (rs : List (List Int)) : Decidable (shapeFrom i rs) := by
  unfold shapeFrom
  infer_instance

instance (rows : List (List Int)) : Decidable (pyramidShape rows) := by
  unfold pyramidShape
  infer_instance

/-- The edges `processCell` adds into the cell at `(i, j)` (vertex `index`,
value `num`): nothing when the value is prime, otherwise the parent edges of
the `j = 0` / `j + 1 = i` / interior branches. -/
def parentEdges (i j index : Nat) (num : Int) : List (Nat × Nat × Int) :=
  if isPrime num = false then
    if j = 0 then [(index - i + 1, index, -num)]
    else if j + 1 = i then [(index - i, index, -num)]
    else [(index - i, index, -num), (index - i + 1, index, -num)]
  else []

/-- All edges `processCell` adds for the cell at `(i, j)`: the parent edges,
then (for the bottom row) the zero-weight sink edge. -/
def cellEdges (N i j index : Nat) (num : Int) : List (Nat × Nat × Int) :=
  parentEdges i j index num ++
    (if isPrime num = false then
      (if i = N then [(index, index + i - j, (0 : Int))] else [])
     else [])

/-- All edges `processCells` adds for one row, positions `j, j+1, ...`. -/
def rowEdges (N i j index : Nat) : List Int → List (Nat × Nat × Int)
  | [] => []
  | num :: rest => cellEdges N i j index num ++ rowEdges N i (j + 1) (index + 1) rest

/-- All edges `processRows` adds for rows `i, i+1, ...`. -/
def rowsEdges (N i index : Nat) : List (List Int) → List (Nat × Nat × Int)
  | [] => []
  | row :: rest => rowEdges N i 0 index row ++ rowsEdges N (i + 1) (index + row.length) rest

/-- The sink edges contributed by a bottom row starting at vertex `index`
(sink vertex `D`): one zero-weight edge per non-prime value. -/
def sinkList (D index : Nat) : List Int → List (Nat × Nat × Int)
  | [] => []
  | num :: rest =>
    (if isPrime num = false then [(index, D, (0 : Int))] else []) ++ sinkList D (index + 1) rest

/-- Total number of values in a list of rows. -/
def sumLens (rs : List (List Int)) : Nat := (rs.map List.length).sum

/-- The stack invariant of the DFS: every vertex on the stack has all its edge
destinations deeper in the stack (pushed earlier), so popping the stack from
the head yields every edge source before its destination. -/
def StackOK (g : DAG) : List Nat → Prop
  | [] => True
  | u :: rest => (∀ e ∈ g.edges, e.1 = u → e.2.1 ∈ rest) ∧ StackOK g rest

/-- Invariant tying a DFS state `(visited, stack)` to the vertex `v` whose
adjacency list is being traversed: the stack is visited, well-ordered, and
every visited vertex above `v` has already been pushed. -/
def DfsInv (g : DAG) (v : Nat) (acc : List Nat × List Nat) : Prop :=
  (∀ u ∈ acc.2, u ∈ acc.1) ∧ StackOK g acc.2 ∧ (∀ u ∈ acc.1, v < u → u ∈ acc.2)

/-- Postcondition of one recursive DFS call on `v`: the new stack extends the
old one by a duplicate-free block of fresh vertices in `[v, vertexAmount)`
containing `v`, that block is exactly the set of newly visited vertices, and
the stack invariant holds afterwards. -/
def VisitSpec (g : DAG) (acc acc' : List Nat × List Nat) (v : Nat) : Prop :=
  ∃ pre : List Nat,
    acc'.2 = pre ++ acc.2 ∧
    (∀ u, u ∈ acc'.1 ↔ (u ∈ acc.1 ∨ u ∈ pre)) ∧
    v ∈ pre ∧
    (∀ u ∈ pre, v ≤ u ∧ u < g.vertexAmount) ∧
    (∀ u ∈ pre, u ∉ acc.1) ∧
    pre.Nodup ∧
    StackOK g acc'.2

/-- Invariant of the top-level DFS driver loop: visited and stack hold the
same vertices, without duplicates, all below `vertexAmount`, and the stack
invariant holds. -/
def TopInv (g : DAG) (acc : List Nat × List Nat) : Prop :=
  (∀ u, u ∈ acc.1 ↔ u ∈ acc.2) ∧ acc.2.Nodup ∧ StackOK g acc.2 ∧
    (∀ u ∈ acc.2, u < g.vertexAmount)

/-- Every edge of `g` strictly increases the vertex id and stays below the
vertex count; the graphs built by `readInput` all satisfy this. -/
def EdgesMono (g : DAG) : Prop :=
  ∀ e ∈ g.edges, e.1 < e.2.1 ∧ e.2.1 < g.vertexAmount

theorem processCell_edges (g : DAG) (N i j index : Nat) (num : Int) :
    (processCell g N i j index num).edges = g.edges ++ cellEdges N i j index num := by
  simp only [processCell, cellEdges, parentEdges, addEdge]
  by_cases hp : isPrime num = false
  · simp only [hp, if_true]
    by_cases hN : i = N
    · subst hN
      by_cases hj : j = 0 <;> by_cases hj1 : j + 1 = i <;>
        simp [hj, hj1, List.append_assoc]
    · by_cases hj : j = 0 <;> by_cases hj1 : j + 1 = i <;>
        simp [hj, hj1, hN, List.append_assoc]
  · simp [hp]

theorem processCell_vertexAmount (g : DAG) (N i j index : Nat) (num : Int) :
    (processCell g N i j index num).vertexAmount = g.vertexAmount := by
  simp only [processCell, addEdge]
  by_cases hp : isPrime num = false
  · simp only [hp, if_true]
    by_cases hN : i = N
    · subst hN
      by_cases hj : j = 0 <;> by_cases hj1 : j + 1 = i <;> simp [hj, hj1]
    · by_cases hj : j = 0 <;> by_cases hj1 : j + 1 = i <;> simp [hj, hj1, hN]
  · simp [hp]

theorem processCells_edges (N i : Nat) :
    ∀ (row : List Int) (g : DAG) (j index : Nat),
      (processCells g N i j index row).edges = g.edges ++ rowEdges N i j index row := by
  intro row
  induction row with
  | nil => intro g j index; simp [processCells, rowEdges]
  | cons num rest ih =>
    intro g j index
    simp [processCells, rowEdges, ih, processCell_edges, List.append_assoc]

theorem processCells_vertexAmount (N i : Nat) :
    ∀ (row : List Int) (g : DAG) (j index : Nat),
      (processCells g N i j index row).vertexAmount = g.vertexAmount := by
  intro row
  induction row with
  | nil => intro g j index; simp [processCells]
  | cons num rest ih =>
    intro g j index
    simp [processCells, ih, processCell_vertexAmount]

theorem processRows_edges (N : Nat) :
    ∀ (rs : List (List Int)) (g : DAG) (i index : Nat),
      (processRows g N i index rs).edges = g.edges ++ rowsEdges N i index rs := by
  intro rs
  induction rs with
  | nil => intro g i index; simp [processRows, rowsEdges]
  | cons row rest ih =>
    intro g i index
    simp [processRows, rowsEdges, ih, processCells_edges, List.append_assoc]

theorem processRows_vertexAmount (N : Nat) :
    ∀ (rs : List (List Int)) (g : DAG) (i index : Nat),
      (processRows g N i index rs).vertexAmount = g.vertexAmount := by
  intro rs
  induction rs with
  | nil => intro g i index; simp [processRows]
  | cons row rest ih =>
    intro g i index
    simp [processRows, ih, processCells_vertexAmount]

theorem readInput_edges (r1 : List Int) (rest : List (List Int)) :
    (readInput (r1 :: rest)).edges =
      if isPrime r1.headI = true then []
      else (0, 1, -r1.headI) :: rowsEdges (rest.length + 1) 2 2 rest := by
  simp only [readInput]
  split_ifs with h
  · rfl
  · simp [processRows_edges, addEdge]

theorem readInput_vertexAmount (rows : List (List Int)) :
    (readInput rows).vertexAmount = NSum rows.length + 2 := by
  cases rows with
  | nil => rfl
  | cons r1 rest =>
    simp only [readInput]
    split_ifs with h
    · rfl
    · simp [processRows_vertexAmount, addEdge]

theorem mem_edgeList (g : DAG) (v d : Nat) (w : Int) :
    (d, w) ∈ edgeList g v ↔ (v, d, w) ∈ g.edges := by
  simp only [edgeList, List.mem_filterMap]
  constructor
  · rintro ⟨e, he, hf⟩
    by_cases h1 : e.1 = v
    · simp only [h1, if_true] at hf
      have : e = (v, d, w) := by
        rcases e with ⟨a, b, c⟩
        simp only at h1
        simp only [Option.some_inj] at hf
        simp [h1, ← hf]
      exact this ▸ he
    · simp [h1] at hf
  · intro he
    exact ⟨(v, d, w), he, by simp⟩

theorem shapeFrom_cons (i : Nat) (row : List Int) (rest : List (List Int)) :
    shapeFrom i (row :: rest) ↔ row.length = i ∧ shapeFrom (i + 1) rest := by
  constructor
  · intro h
    refine ⟨?_, ?_⟩
    · have := h 0 (by simp)
      simpa using this
    · intro k hk
      have := h (k + 1) (by simpa using Nat.succ_lt_succ hk)
      simpa [Nat.add_assoc, Nat.add_comm 1 k, Nat.add_left_comm] using this
  · rintro ⟨h0, h1⟩ k hk
    cases k with
    | zero => simpa using h0
    | succ k =>
      have := h1 k (by simpa using Nat.lt_of_succ_lt_succ hk)
      simpa [Nat.add_assoc, Nat.add_comm 1 k, Nat.add_left_comm] using this

theorem sumLens_cons (row : List Int) (rest : List (List Int)) :
    sumLens (row :: rest) = row.length + sumLens rest := by
  simp [sumLens]

theorem NSum_pred (i : Nat) (h : 1 ≤ i) : NSum i = NSum (i - 1) + i := by
  cases i with
  | zero => omega
  | succ k => simp [NSum]

theorem sumLens_shape :
    ∀ (rs : List (List Int)) (i : Nat), 1 ≤ i → shapeFrom i rs →
      NSum (i - 1) + sumLens rs = NSum (i - 1 + rs.length) := by
  intro rs
  induction rs with
  | nil => intro i hi h; simp [sumLens]
  | cons row rest ih =>
    intro i hi h
    rcases (shapeFrom_cons i row rest).1 h with ⟨hlen, hrest⟩
    have h2 := ih (i + 1) (by omega) hrest
    have h3 : NSum i = NSum (i - 1) + i := NSum_pred i hi
    have h4 : (i + 1) - 1 = i := by omega
    rw [h4] at h2
    have h5 : i - 1 + (row :: rest).length = i + rest.length := by
      simp [List.length_cons]; omega
    rw [h5, ← h2, sumLens_cons, hlen]
    omega

theorem parentEdges_dest (i j index : Nat) (num : Int) :
    ∀ e ∈ parentEdges i j index num, e.2.1 = index := by
  intro e he
  simp only [parentEdges] at he
  split_ifs at he <;> simp_all <;> rcases he with h | h <;> simp [h]

theorem parentEdges_src_lt (i j index : Nat) (num : Int) (hi : 2 ≤ i) (hx : 2 ≤ index) :
    ∀ e ∈ parentEdges i j index num, e.1 < index := by
  intro e he
  simp only [parentEdges] at he
  split_ifs at he <;> simp_all <;> try omega
  rcases he with h | h <;> simp [h] <;> omega

theorem cellEdges_cases (N i j index : Nat) (num : Int) :
    ∀ e ∈ cellEdges N i j index num,
      e ∈ parentEdges i j index num ∨ (i = N ∧ e = (index, index + i - j, (0 : Int))) := by
  intro e he
  simp only [cellEdges, List.mem_append] at he
  rcases he with he | he
  · exact Or.inl he
  · right
    split_ifs at he with h1 h2
    · simp only [List.mem_singleton] at he
      exact ⟨h2, he⟩
    · simp at he
    · simp at he

theorem rowEdges_dest_lb (N i : Nat) :
    ∀ (row : List Int) (j index : Nat), j + row.length ≤ i →
      ∀ e ∈ rowEdges N i j index row, index ≤ e.2.1 := by
  intro row
  induction row with
  | nil => intro j index hlen e he; simp [rowEdges] at he
  | cons num rest ih =>
    intro j index hlen e he
    simp only [List.length_cons] at hlen
    simp only [rowEdges, List.mem_append] at he
    rcases he with he | he
    · rcases cellEdges_cases N i j index num e he with he | ⟨hN, he⟩
      · exact le_of_eq (parentEdges_dest i j index num e he).symm
      · subst he; simp; omega
    · have := ih (j + 1) (index + 1) (by omega) e he
      omega

theorem rowEdges_dest_ub (N i : Nat) :
    ∀ (row : List Int) (j index : Nat), j + row.length ≤ i →
      ∀ e ∈ rowEdges N i j index row, e.2.1 ≤ index + (i - j) := by
  intro row
  induction row with
  | nil => intro j index hlen e he; simp [rowEdges] at he
  | cons num rest ih =>
    intro j index hlen e he
    simp only [List.length_cons] at hlen
    simp only [rowEdges, List.mem_append] at he
    rcases he with he | he
    · rcases cellEdges_cases N i j index num e he with he | ⟨hN, he⟩
      · have := parentEdges_dest i j index num e he
        omega
      · subst he; simp; omega
    · have := ih (j + 1) (index + 1) (by omega) e he
      omega

theorem rowEdges_dest_ub_strict (N i : Nat) (hN : i ≠ N) :
    ∀ (row : List Int) (j index : Nat),
      ∀ e ∈ rowEdges N i j index row, e.2.1 < index + row.length := by
  intro row
  induction row with
  | nil => intro j index e he; simp [rowEdges] at he
  | cons num rest ih =>
    intro j index e he
    simp only [rowEdges, List.mem_append] at he
    rcases he with he | he
    · rcases cellEdges_cases N i j index num e he with he | ⟨hN2, he⟩
      · have := parentEdges_dest i j index num e he
        simp only [List.length_cons]
        omega
      · exact absurd hN2 hN
    · have := ih (j + 1) (index + 1) e he
      simp only [List.length_cons]
      omega

theorem rowEdges_mono (N i : Nat) (hi : 2 ≤ i) :
    ∀ (row : List Int) (j index : Nat), 2 ≤ index → j + row.length ≤ i →
      ∀ e ∈ rowEdges N i j index row, e.1 < e.2.1 := by
  intro row
  induction row with
  | nil => intro j index hx hlen e he; simp [rowEdges] at he
  | cons num rest ih =>
    intro j index hx hlen e he
    simp only [List.length_cons] at hlen
    simp only [rowEdges, List.mem_append] at he
    rcases he with he | he
    · rcases cellEdges_cases N i j index num e he with he | ⟨hN, he⟩
      · have h1 := parentEdges_dest i j index num e he
        have h2 := parentEdges_src_lt i j index num hi hx e he
        omega
      · subst he; simp; omega
    · exact ih (j + 1) (index + 1) (by omega) (by omega) e he

theorem rowsEdges_dest_lb (N : Nat) :
    ∀ (rs : List (List Int)) (i index : Nat), shapeFrom i rs →
      ∀ e ∈ rowsEdges N i index rs, index ≤ e.2.1 := by
  intro rs
  induction rs with
  | nil => intro i index hs e he; simp [rowsEdges] at he
  | cons row rest ih =>
    intro i index hs e he
    rcases (shapeFrom_cons i row rest).1 hs with ⟨hlen, hrest⟩
    simp only [rowsEdges, List.mem_append] at he
    rcases he with he | he
    · exact rowEdges_dest_lb N i row 0 index (by omega) e he
    · have := ih (i + 1) (index + row.length) hrest e he
      omega

theorem rowsEdges_dest_ub (N : Nat) :
    ∀ (rs : List (List Int)) (i index : Nat), shapeFrom i rs →
      ∀ e ∈ rowsEdges N i index rs, e.2.1 ≤ index + sumLens rs := by
  intro rs
  induction rs with
  | nil => intro i index hs e he; simp [rowsEdges] at he
  | cons row rest ih =>
    intro i index hs e he
    rcases (shapeFrom_cons i row rest).1 hs with ⟨hlen, hrest⟩
    simp only [rowsEdges, List.mem_append] at he
    rcases he with he | he
    · have := rowEdges_dest_ub N i row 0 index (by omega) e he
      rw [sumLens_cons]
      omega
    · have := ih (i + 1) (index + row.length) hrest e he
      rw [sumLens_cons]
      omega

theorem rowsEdges_mono (N : Nat) :
    ∀ (rs : List (List Int)) (i index : Nat), 2 ≤ i → 2 ≤ index → shapeFrom i rs →
      ∀ e ∈ rowsEdges N i index rs, e.1 < e.2.1 := by
  intro rs
  induction rs with
  | nil => intro i index hi hx hs e he; simp [rowsEdges] at he
  | cons row rest ih =>
    intro i index hi hx hs e he
    rcases (shapeFrom_cons i row rest).1 hs with ⟨hlen, hrest⟩
    simp only [rowsEdges, List.mem_append] at he
    rcases he with he | he
    · exact rowEdges_mono N i hi row 0 index hx (by omega) e he
    · exact ih (i + 1) (index + row.length) (by omega) (by omega) hrest e he

theorem NSum_ge (n : Nat) : n ≤ NSum n := by
  induction n with
  | zero => simp [NSum]
  | succ k ih => simp only [NSum]; omega

theorem readInput_nil_edges : (readInput []).edges = [] := rfl

theorem readInput_monotone (rows : List (List Int)) (hshape : pyramidShape rows) :
    EdgesMono (readInput rows) := by
  intro e he
  cases rows with
  | nil => simp [readInput_nil_edges] at he
  | cons r1 rest =>
    rw [readInput_edges] at he
    rw [readInput_vertexAmount]
    split_ifs at he with hp
    · simp at he
    · rcases (shapeFrom_cons 1 r1 rest).1 hshape with ⟨hr1, hrest⟩
      simp only [List.mem_cons] at he
      rcases he with he | he
      · subst he
        constructor
        · show 0 < 1
          omega
        · show 1 < NSum (r1 :: rest).length + 2
          omega
      · constructor
        · exact rowsEdges_mono (rest.length + 1) rest 2 2 (by omega) (by omega) hrest e he
        · have h1 := rowsEdges_dest_ub (rest.length + 1) rest 2 2 hrest e he
          have h2 := sumLens_shape rest 2 (by omega) hrest
          simp only [List.length_cons]
          have h3 : NSum 1 = 1 := by simp [NSum]
          simp only [Nat.add_sub_cancel] at h2
          rw [h3] at h2
          have h4 : NSum (2 - 1 + rest.length) = NSum (rest.length + 1) := by
            have : 2 - 1 + rest.length = rest.length + 1 := by omega
            rw [this]
          omega

theorem filter_none (p : Nat × Nat × Int → Bool) :
    ∀ l : List (Nat × Nat × Int), (∀ e ∈ l, p e = false) → l.filter p = [] := by
  intro l
  induction l with
  | nil => intro h; rfl
  | cons a t ih =>
    intro h
    have ha := h a (by simp)
    rw [List.filter_cons]
    simp only [ha]
    exact ih (fun e he => h e (by simp [he]))

theorem filter_all (p : Nat × Nat × Int → Bool) :
    ∀ l : List (Nat × Nat × Int), (∀ e ∈ l, p e = true) → l.filter p = l := by
  intro l
  induction l with
  | nil => intro h; rfl
  | cons a t ih =>
    intro h
    have ha := h a (by simp)
    rw [List.filter_cons]
    simp only [ha, if_true]
    rw [ih (fun e he => h e (by simp [he]))]

theorem NSum_mono : ∀ a b : Nat, a ≤ b → NSum a ≤ NSum b := by
  intro a b h
  induction b with
  | zero => simp_all
  | succ k ih =>
    rcases Nat.lt_or_ge a (k + 1) with h2 | h2
    · have := ih (by omega)
      simp only [NSum]
      omega
    · have : a = k + 1 := by omega
      simp [this]

theorem rowEdges_filter_dest (N i : Nat) :
    ∀ (row : List Int) (j index k : Nat), k < row.length → j + row.length ≤ i →
      (rowEdges N i j index row).filter (fun e => decide (e.2.1 = index + k)) =
        parentEdges i (j + k) (index + k) (row.getD k 0) := by
  intro row
  induction row with
  | nil => intro j index k hk hlen; simp at hk
  | cons num rest ih =>
    intro j index k hk hlen
    simp only [List.length_cons] at hk hlen
    rw [rowEdges, List.filter_append]
    cases k with
    | zero =>
      have hcell : (cellEdges N i j index num).filter (fun e => decide (e.2.1 = index + 0)) =
          parentEdges i j index num := by
        rw [cellEdges, List.filter_append]
        have h1 : (parentEdges i j index num).filter (fun e => decide (e.2.1 = index + 0)) =
            parentEdges i j index num := by
          apply filter_all
          intro e he
          have := parentEdges_dest i j index num e he
          simp [this]
        have h2 : ((if isPrime num = false then
            (if i = N then [(index, index + i - j, (0 : Int))] else []) else [])).filter
              (fun e => decide (e.2.1 = index + 0)) = [] := by
          apply filter_none
          intro e he
          split_ifs at he with hp hN
          · simp only [List.mem_singleton] at he
            subst he
            simp only [decide_eq_false_iff_not]
            omega
          · simp at he
          · simp at he
        rw [h1, h2, List.append_nil]
      have hrest : (rowEdges N i (j + 1) (index + 1) rest).filter
          (fun e => decide (e.2.1 = index + 0)) = [] := by
        apply filter_none
        intro e he
        have := rowEdges_dest_lb N i rest (j + 1) (index + 1) (by omega) e he
        simp only [decide_eq_false_iff_not]
        omega
      rw [hcell, hrest, List.append_nil]
      simp
    | succ c =>
      have hcell : (cellEdges N i j index num).filter
          (fun e => decide (e.2.1 = index + (c + 1))) = [] := by
        apply filter_none
        intro e he
        rcases cellEdges_cases N i j index num e he with he | ⟨hN, he⟩
        · have := parentEdges_dest i j index num e he
          simp only [decide_eq_false_iff_not]
          omega
        · subst he
          simp only [decide_eq_false_iff_not]
          omega
      rw [hcell, List.nil_append]
      have heq : index + (c + 1) = (index + 1) + c := by omega
      rw [heq, ih (j + 1) (index + 1) c (by omega) (by omega)]
      have heq2 : j + 1 + c = j + (c + 1) := by omega
      have heq3 : (index + 1) + c = index + (c + 1) := by omega
      rw [heq2, heq3]
      simp

theorem rowsEdges_filter_dest (N i0 j0 : Nat) :
    ∀ (rs : List (List Int)) (i index : Nat), shapeFrom i rs → 2 ≤ i →
      index = NSum (i - 1) + 1 → N + 1 = i + rs.length →
      i ≤ i0 → i0 ≤ N → j0 < i0 →
      (rowsEdges N i index rs).filter (fun e => decide (e.2.1 = vertexId i0 j0)) =
        parentEdges i0 j0 (vertexId i0 j0) ((rs.getD (i0 - i) []).getD j0 0) := by
  intro rs
  induction rs with
  | nil =>
    intro i index hs hi hidx hN hii0 hi0N hj0
    simp only [List.length_nil] at hN
    omega
  | cons row rest ih =>
    intro i index hs hi hidx hN hii0 hi0N hj0
    rcases (shapeFrom_cons i row rest).1 hs with ⟨hlen, hrest⟩
    rw [rowsEdges, List.filter_append]
    rcases Nat.eq_or_lt_of_le hii0 with hieq | hilt
    · subst hieq
      have htarget : vertexId i j0 = index + j0 := by
        simp only [vertexId]
        omega
      rw [htarget]
      have hrow := rowEdges_filter_dest N i row 0 index j0 (by omega) (by omega)
      simp only [Nat.zero_add] at hrow
      rw [hrow]
      have hrest0 : (rowsEdges N (i + 1) (index + row.length) rest).filter
          (fun e => decide (e.2.1 = index + j0)) = [] := by
        apply filter_none
        intro e he
        have := rowsEdges_dest_lb N rest (i + 1) (index + row.length) hrest e he
        simp only [decide_eq_false_iff_not]
        omega
      rw [hrest0, List.append_nil]
      simp
    · have hiN2 : i ≠ N := by omega
      have hrow0 : (rowEdges N i 0 index row).filter
          (fun e => decide (e.2.1 = vertexId i0 j0)) = [] := by
        apply filter_none
        intro e he
        have h1 := rowEdges_dest_ub_strict N i hiN2 row 0 index e he
        have h2 : NSum i ≤ NSum (i0 - 1) := NSum_mono i (i0 - 1) (by omega)
        have h3 : NSum (i - 1) + i = NSum i := (NSum_pred i (by omega)).symm
        simp only [decide_eq_false_iff_not, vertexId]
        omega
      rw [hrow0, List.nil_append]
      have hidx2 : index + row.length = NSum ((i + 1) - 1) + 1 := by
        have h3 : NSum (i - 1) + i = NSum i := (NSum_pred i (by omega)).symm
        simp only [Nat.add_sub_cancel]
        omega
      rw [ih (i + 1) (index + row.length) hrest (by omega) hidx2
        (by simp only [List.length_cons] at hN; omega) (by omega) hi0N hj0]
      have hk : i0 - i = (i0 - (i + 1)) + 1 := by omega
      rw [hk, List.getD_cons_succ]

theorem readInput_filter_dest (r1 : List Int) (rest : List (List Int)) (i j : Nat)
    (hshape : pyramidShape (r1 :: rest)) (hp : isPrime r1.headI = false)
    (hi : 2 ≤ i) (hiN : i ≤ rest.length + 1) (hj : j < i) :
    (readInput (r1 :: rest)).edges.filter (fun e => decide (e.2.1 = vertexId i j)) =
      parentEdges i j (vertexId i j) (((r1 :: rest).getD (i - 1) []).getD j 0) := by
  rw [readInput_edges]
  rw [if_neg (by simp [hp])]
  rcases (shapeFrom_cons 1 r1 rest).1 hshape with ⟨hr1, hrest⟩
  have hhead : (decide ((0, 1, -r1.headI).2.1 = vertexId i j)) = false := by
    have h1 : 1 ≤ NSum (i - 1) := le_trans (by omega) (le_trans (NSum_ge (i - 1)) (le_refl _))
    simp only [decide_eq_false_iff_not, vertexId]
    omega
  rw [List.filter_cons]
  simp only [hhead, Bool.false_eq_true, if_false]
  have := rowsEdges_filter_dest (rest.length + 1) i j rest 2 2 hrest (by omega)
    (by simp [NSum]) (by omega) hi hiN hj
  rw [this]
  have hk : i - 1 = (i - 2) + 1 := by omega
  rw [hk, List.getD_cons_succ]

theorem foldl_relax_le (u : Nat) :
    ∀ (l : List (Nat × Int)) (s : Nat → Int) (x : Nat),
      (l.foldl (fun t e => if t e.1 > t u + e.2 then Function.update t e.1 (t u + e.2) else t) s) x
        ≤ s x := by
  intro l
  induction l with
  | nil => intro s x; exact le_refl _
  | cons e rest ih =>
    intro s x
    simp only [List.foldl_cons]
    refine le_trans (ih _ x) ?_
    split_ifs with hc
    · by_cases hx : x = e.1
      · subst hx
        rw [Function.update_same]
        omega
      · rw [Function.update_noteq hx]
    · exact le_refl _

theorem relaxVertex_le (g : DAG) (s : Nat → Int) (u : Nat) :
    ∀ x, relaxVertex g s u x ≤ s x := by
  intro x
  unfold relaxVertex
  split_ifs with h
  · exact le_refl _
  · exact foldl_relax_le u (edgeList g u) s x

theorem relaxFold_le (g : DAG) :
    ∀ (order : List Nat) (s : Nat → Int) (x : Nat),
      (order.foldl (relaxVertex g) s) x ≤ s x := by
  intro order
  induction order with
  | nil => intro s x; exact le_refl _
  | cons u rest ih =>
    intro s x
    simp only [List.foldl_cons]
    exact le_trans (ih _ x) (relaxVertex_le g s u x)

theorem foldl_relax_untouched (u v : Nat) :
    ∀ (l : List (Nat × Int)) (s : Nat → Int), (∀ e ∈ l, e.1 ≠ v) →
      (l.foldl (fun t e => if t e.1 > t u + e.2 then Function.update t e.1 (t u + e.2) else t) s) v
        = s v := by
  intro l
  induction l with
  | nil => intro s h; rfl
  | cons e rest ih =>
    intro s h
    simp only [List.foldl_cons]
    rw [ih _ (fun e' he' => h e' (by simp [he']))]
    split_ifs with hc
    · exact Function.update_noteq (fun hx => h e (by simp) hx.symm) _ s
    · rfl

theorem relaxVertex_untouched (g : DAG) (v : Nat) (hnd : ∀ e ∈ g.edges, e.2.1 ≠ v) :
    ∀ (s : Nat → Int) (u : Nat), relaxVertex g s u v = s v := by
  intro s u
  unfold relaxVertex
  split_ifs with h
  · rfl
  · refine foldl_relax_untouched u v (edgeList g u) s ?_
    intro e he
    have : (e.1, e.2) ∈ edgeList g u := by simpa using he
    rw [mem_edgeList] at this
    exact hnd (u, e.1, e.2) this

theorem relaxFold_untouched (g : DAG) (v : Nat) (hnd : ∀ e ∈ g.edges, e.2.1 ≠ v) :
    ∀ (order : List Nat) (s : Nat → Int), (order.foldl (relaxVertex g) s) v = s v := by
  intro order
  induction order with
  | nil => intro s; rfl
  | cons u rest ih =>
    intro s
    simp only [List.foldl_cons]
    rw [ih _, relaxVertex_untouched g v hnd]

theorem extractSum_some_zero :
    ∀ (l : List Nat) (s : Nat → Int), 0 ∈ l → (∀ x ∈ l, x ≠ 0 → s x = INT_MAX) → s 0 = 0 →
      extractSum s l = some 0 := by
  intro l
  induction l with
  | nil => intro s h; simp at h
  | cons i rest ih =>
    intro s h0 hmax hs0
    by_cases hi : i = 0
    · subst hi
      unfold extractSum
      rw [if_pos (by rw [hs0]; intro hc; exact absurd hc (by decide))]
      rw [hs0]
      rfl
    · unfold extractSum
      rw [if_neg (by simp [hmax i (by simp) hi])]
      refine ih s ?_ (fun x hx => hmax x (by simp [hx])) hs0
      rcases List.mem_cons.mp h0 with h | h
      · exact absurd h.symm hi
      · exact h

theorem extractSum_ne_none :
    ∀ (l : List Nat) (s : Nat → Int), 0 ∈ l → s 0 ≠ INT_MAX → extractSum s l ≠ none := by
  intro l
  induction l with
  | nil => intro s h; simp at h
  | cons i rest ih =>
    intro s h0 hs0
    unfold extractSum
    split_ifs with h
    · simp
    · push_neg at h
      have hi : i ≠ 0 := by
        intro hc
        subst hc
        exact hs0 h
      refine ih s ?_ hs0
      rcases List.mem_cons.mp h0 with hh | hh
      · exact absurd hh.symm hi
      · exact hh

theorem maximumSum_ne_none (g : DAG) (h : 0 < g.vertexAmount) : maximumSum g ≠ none := by
  unfold maximumSum
  apply extractSum_ne_none
  · simp [h]
  · have h1 : relaxAll g 0 ≤ initSum 0 := relaxFold_le g (topologicalSort g) initSum 0
    have h2 : initSum 0 = 0 := by simp [initSum]
    rw [h2] at h1
    intro hc
    rw [hc] at h1
    exact absurd h1 (by decide)

theorem relaxFold_isolated (g : DAG) (hadj : edgeList g 0 = []) :
    ∀ (order : List Nat) (s : Nat → Int), (∀ x, x ≠ 0 → s x = INT_MAX) →
      ∀ x, (order.foldl (relaxVertex g) s) x = s x := by
  intro order
  induction order with
  | nil => intro s hs x; rfl
  | cons u rest ih =>
    intro s hs x
    simp only [List.foldl_cons]
    have hstep : relaxVertex g s u = s := by
      by_cases hu : u = 0
      · subst hu
        unfold relaxVertex
        rw [hadj]
        split_ifs <;> rfl
      · unfold relaxVertex
        rw [if_pos (hs u hu)]
    rw [hstep]
    exact ih s hs x

theorem maximumSum_no_source_edges (g : DAG) (h : 0 < g.vertexAmount)
    (hadj : edgeList g 0 = []) : maximumSum g = some 0 := by
  unfold maximumSum
  have hiso := relaxFold_isolated g hadj (topologicalSort g) initSum
    (fun x hx => by simp [initSum, hx])
  apply extractSum_some_zero
  · simp [h]
  · intro x hx hx0
    unfold relaxAll
    rw [hiso x]
    simp [initSum, hx0]
  · unfold relaxAll
    rw [hiso 0]
    simp [initSum]

theorem DfsInv_of_VisitSpec (g : DAG) (v w : Nat) (acc acc' : List Nat × List Nat)
    (hinv : DfsInv g v acc) (hs : VisitSpec g acc acc' w) : DfsInv g v acc' := by
  obtain ⟨pre, hst, hvis, hwpre, hbnd, hfresh, hnd, hok⟩ := hs
  refine ⟨?_, hok, ?_⟩
  · intro u hu
    rw [hst] at hu
    rcases List.mem_append.mp hu with h | h
    · exact (hvis u).2 (Or.inr h)
    · exact (hvis u).2 (Or.inl (hinv.1 u h))
  · intro u hu hlt
    rcases (hvis u).1 hu with h | h
    · have := hinv.2.2 u h hlt
      rw [hst]
      exact List.mem_append.mpr (Or.inr this)
    · rw [hst]
      exact List.mem_append.mpr (Or.inl h)

theorem visitList_spec (g : DAG) (v : Nat)
    (f : Nat → List Nat × List Nat → List Nat × List Nat)
    (hf : ∀ w acc, v < w → w < g.vertexAmount → w ∉ acc.1 → DfsInv g v acc →
      VisitSpec g acc (f w acc) w) :
    ∀ (l : List (Nat × Int)) (acc : List Nat × List Nat),
      (∀ e ∈ l, v < e.1 ∧ e.1 < g.vertexAmount) → DfsInv g v acc →
      ∃ preA : List Nat,
        (visitList f l acc).2 = preA ++ acc.2 ∧
        (∀ u, u ∈ (visitList f l acc).1 ↔ u ∈ acc.1 ∨ u ∈ preA) ∧
        (∀ u ∈ preA, v < u ∧ u < g.vertexAmount) ∧
        (∀ u ∈ preA, u ∉ acc.1) ∧
        preA.Nodup ∧
        DfsInv g v (visitList f l acc) ∧
        (∀ e ∈ l, e.1 ∈ (visitList f l acc).2) := by
  intro l
  induction l with
  | nil =>
    intro acc hl hinv
    refine ⟨[], by simp [visitList], by simp [visitList], by simp, by simp, List.nodup_nil,
      by simpa [visitList] using hinv, by simp⟩
  | cons e rest ih =>
    intro acc hl hinv
    rcases hl e (by simp) with ⟨hv1, hv2⟩
    by_cases hmem : e.1 ∈ acc.1
    · rw [visitList, if_pos hmem]
      obtain ⟨preA, hst, hvis, hbnd, hfresh, hnd, hinv2, hsucc⟩ :=
        ih acc (fun e' he' => hl e' (by simp [he'])) hinv
      refine ⟨preA, hst, hvis, hbnd, hfresh, hnd, hinv2, ?_⟩
      intro e' he'
      rcases List.mem_cons.mp he' with h | h
      · subst h
        have h2 : e'.1 ∈ acc.2 := hinv.2.2 e'.1 hmem hv1
        rw [hst]
        exact List.mem_append.mpr (Or.inr h2)
      · exact hsucc e' h
    · rw [visitList, if_neg hmem]
      have hsp := hf e.1 acc hv1 hv2 hmem hinv
      obtain ⟨preW, hstW, hvisW, hinW, hbndW, hfreshW, hndW, hokW⟩ := hsp
      have hinv' : DfsInv g v (f e.1 acc) :=
        DfsInv_of_VisitSpec g v e.1 acc (f e.1 acc) hinv
          ⟨preW, hstW, hvisW, hinW, hbndW, hfreshW, hndW, hokW⟩
      obtain ⟨preR, hstR, hvisR, hbndR, hfreshR, hndR, hinvR, hsuccR⟩ :=
        ih (f e.1 acc) (fun e' he' => hl e' (by simp [he'])) hinv'
      refine ⟨preR ++ preW, ?_, ?_, ?_, ?_, ?_, hinvR, ?_⟩
      · rw [hstR, hstW, List.append_assoc]
      · intro u
        rw [hvisR u, hvisW u, List.mem_append]
        tauto
      · intro u hu
        rcases List.mem_append.mp hu with h | h
        · exact hbndR u h
        · rcases hbndW u h with ⟨h1, h2⟩
          exact ⟨by omega, h2⟩
      · intro u hu
        rcases List.mem_append.mp hu with h | h
        · intro hc
          exact hfreshR u h ((hvisW u).2 (Or.inl hc))
        · exact hfreshW u h
      · rw [List.nodup_append]
        refine ⟨hndR, hndW, ?_⟩
        intro a haR haW
        exact hfreshR a haR ((hvisW a).2 (Or.inr haW))
      · intro e' he'
        rcases List.mem_cons.mp he' with h | h
        · subst h
          have h2 : e'.1 ∈ (f e'.1 acc).2 := by
            rw [hstW]
            exact List.mem_append.mpr (Or.inl hinW)
          rw [hstR]
          exact List.mem_append.mpr (Or.inr h2)
        · exact hsuccR e' h

theorem visit_spec (g : DAG) (hmono : EdgesMono g) :
    ∀ (fuel : Nat), ∀ (v : Nat) (acc : List Nat × List Nat),
      v < g.vertexAmount → v ∉ acc.1 → g.vertexAmount ≤ fuel + v → DfsInv g v acc →
      VisitSpec g acc (topologicalSortRecursive g fuel v acc) v := by
  intro fuel
  induction fuel with
  | zero =>
    intro v acc h1 h2 h3 h4
    omega
  | succ fuel ih =>
    intro v acc hvV hvnot hfuel hinv
    have hinv1 : DfsInv g v (v :: acc.1, acc.2) := by
      refine ⟨?_, hinv.2.1, ?_⟩
      · intro u hu
        exact List.mem_cons.mpr (Or.inr (hinv.1 u hu))
      · intro u hu hlt
        rcases List.mem_cons.mp hu with h | h
        · omega
        · exact hinv.2.2 u h hlt
    have hl : ∀ e ∈ edgeList g v, v < e.1 ∧ e.1 < g.vertexAmount := by
      intro e he
      have h2 : (e.1, e.2) ∈ edgeList g v := by simpa using he
      rw [mem_edgeList] at h2
      exact hmono (v, e.1, e.2) h2
    have hf : ∀ w a, v < w → w < g.vertexAmount → w ∉ a.1 → DfsInv g v a →
        VisitSpec g a (topologicalSortRecursive g fuel w a) w := by
      intro w a hw1 hw2 hw3 hw4
      exact ih w a hw2 hw3 (by omega)
        ⟨hw4.1, hw4.2.1, fun u hu hlt => hw4.2.2 u hu (by omega)⟩
    obtain ⟨preA, hst, hvis, hbnd, hfresh, hnd, hinv2, hsucc⟩ :=
      visitList_spec g v (fun w a => topologicalSortRecursive g fuel w a) hf
        (edgeList g v) (v :: acc.1, acc.2) hl hinv1
    rw [topologicalSortRecursive]
    refine ⟨v :: preA, ?_, ?_, by simp, ?_, ?_, ?_, ?_⟩
    · simp only [List.cons_append]
      rw [hst]
    · intro u
      simp only
      rw [hvis u]
      simp only [List.mem_cons]
      tauto
    · intro u hu
      rcases List.mem_cons.mp hu with h | h
      · subst h
        exact ⟨le_refl _, hvV⟩
      · rcases hbnd u h with ⟨h1, h2⟩
        exact ⟨by omega, h2⟩
    · intro u hu
      rcases List.mem_cons.mp hu with h | h
      · subst h
        exact hvnot
      · intro hc
        exact hfresh u h (List.mem_cons.mpr (Or.inr hc))
    · rw [List.nodup_cons]
      refine ⟨?_, hnd⟩
      intro hc
      have := (hbnd v hc).1
      omega
    · show StackOK g (v :: _)
      rw [StackOK]
      refine ⟨?_, hinv2.2.1⟩
      intro e he h1
      have h2 : (e.2.1, e.2.2) ∈ edgeList g v := by
        rw [mem_edgeList]
        rcases e with ⟨a, b, c⟩
        simp only at h1
        rw [h1] at he
        exact he
      exact hsucc (e.2.1, e.2.2) h2

theorem topoFrom_spec (g : DAG) (hmono : EdgesMono g) :
    ∀ (l : List Nat) (acc : List Nat × List Nat),
      (∀ i ∈ l, i < g.vertexAmount) → TopInv g acc →
      TopInv g (topoFrom g acc l) ∧ (∀ i ∈ l, i ∈ (topoFrom g acc l).1) ∧
        (∀ u ∈ acc.1, u ∈ (topoFrom g acc l).1) := by
  intro l
  induction l with
  | nil =>
    intro acc hl htop
    exact ⟨by simpa [topoFrom] using htop, by simp, by simp [topoFrom]⟩
  | cons i rest ih =>
    intro acc hl htop
    have hiV : i < g.vertexAmount := hl i (by simp)
    by_cases hmem : i ∈ acc.1
    · rw [topoFrom, if_pos hmem]
      obtain ⟨h1, h2, h3⟩ := ih acc (fun x hx => hl x (by simp [hx])) htop
      refine ⟨h1, ?_, h3⟩
      intro x hx
      rcases List.mem_cons.mp hx with h | h
      · subst h
        exact h3 x hmem
      · exact h2 x h
    · rw [topoFrom, if_neg hmem]
      have hinv : DfsInv g i acc := by
        refine ⟨?_, htop.2.2.1, ?_⟩
        · intro u hu
          exact (htop.1 u).2 hu
        · intro u hu hlt
          exact (htop.1 u).1 hu
      have hsp := visit_spec g hmono g.vertexAmount i acc hiV hmem (by omega) hinv
      obtain ⟨pre, hst, hvis, hipre, hbnd, hfresh, hnd, hok⟩ := hsp
      set acc' := topologicalSortRecursive g g.vertexAmount i acc with hacc'
      have htop' : TopInv g acc' := by
        refine ⟨?_, ?_, hok, ?_⟩
        · intro u
          rw [hvis u, hst, List.mem_append]
          rw [htop.1 u]
          tauto
        · rw [hst, List.nodup_append]
          refine ⟨hnd, htop.2.1, ?_⟩
          intro a ha hb
          exact hfresh a ha ((htop.1 a).2 hb)
        · intro u hu
          rw [hst] at hu
          rcases List.mem_append.mp hu with h | h
          · exact (hbnd u h).2
          · exact htop.2.2.2 u h
      obtain ⟨h1, h2, h3⟩ := ih acc' (fun x hx => hl x (by simp [hx])) htop'
      refine ⟨h1, ?_, ?_⟩
      · intro x hx
        rcases List.mem_cons.mp hx with h | h
        · subst h
          exact h3 x ((hvis x).2 (Or.inr hipre))
        · exact h2 x h
      · intro u hu
        exact h3 u ((hvis u).2 (Or.inl hu))

theorem topologicalSort_spec (g : DAG) (hmono : EdgesMono g) :
    (topologicalSort g).Nodup ∧ (∀ v, v ∈ topologicalSort g ↔ v < g.vertexAmount) ∧
      StackOK g (topologicalSort g) := by
  have h0 : TopInv g ([], []) := by
    refine ⟨by simp, List.nodup_nil, ?_, by simp⟩
    rw [StackOK]
    trivial
  obtain ⟨hfin, hall, _⟩ :=
    topoFrom_spec g hmono (List.range g.vertexAmount) ([], []) (by simp) h0
  refine ⟨hfin.2.1, ?_, hfin.2.2.1⟩
  intro v
  constructor
  · intro hv
    exact hfin.2.2.2 v hv
  · intro hv
    have h1 : v ∈ (topoFrom g ([], []) (List.range g.vertexAmount)).1 :=
      hall v (List.mem_range.mpr hv)
    exact (hfin.1 v).1 h1

theorem StackOK_closed (g : DAG) :
    ∀ (l : List Nat), StackOK g l → ∀ e ∈ g.edges, e.1 ∈ l → e.2.1 ∈ l := by
  intro l
  induction l with
  | nil => intro _ e _ h; simp at h
  | cons x rest ih =>
    intro hok e he hmem
    rw [StackOK] at hok
    rcases List.mem_cons.mp hmem with h | h
    · exact List.mem_cons.mpr (Or.inr (hok.1 e he h))
    · exact List.mem_cons.mpr (Or.inr (ih hok.2 e he h))

theorem StackOK_before (g : DAG) :
    ∀ (l : List Nat), StackOK g l → l.Nodup → ∀ e ∈ g.edges, e.1 ∈ l →
      l.indexOf e.1 < l.indexOf e.2.1 := by
  intro l
  induction l with
  | nil => intro _ _ e _ h; simp at h
  | cons x rest ih =>
    intro hok hnd e he hmem
    rw [StackOK] at hok
    rw [List.nodup_cons] at hnd
    by_cases hx : e.1 = x
    · have h2 : e.2.1 ∈ rest := hok.1 e he hx
      have h3 : e.2.1 ≠ x := by
        intro hc
        rw [hc] at h2
        exact hnd.1 h2
      rw [hx, List.indexOf_cons_self]
      rw [List.indexOf_cons_ne rest (fun hc => h3 hc.symm)]
      omega
    · have h1 : e.1 ∈ rest := by
        rcases List.mem_cons.mp hmem with h | h
        · exact absurd h hx
        · exact h
      have h2 : e.2.1 ∈ rest := StackOK_closed g rest hok.2 e he h1
      have h3 : e.2.1 ≠ x := by
        intro hc
        rw [hc] at h2
        exact hnd.1 h2
      rw [List.indexOf_cons_ne rest (fun hc => hx hc.symm)]
      rw [List.indexOf_cons_ne rest (fun hc => h3 hc.symm)]
      have := ih hok.2 hnd.2 e he h1
      omega

theorem trialDiv_eq_false (num : Nat) :
    ∀ i, 5 ≤ i → trialDiv num i = false → ∃ d, d ∣ num ∧ 2 ≤ d ∧ d < num := by
  intro i
  refine trialDiv.induct num
    (fun i => 5 ≤ i → trialDiv num i = false → ∃ d, d ∣ num ∧ 2 ≤ d ∧ d < num) ?_ ?_ ?_ i
  · intro x hle hdvd h5 hf
    have hx5 : 5 * x ≤ x * x := Nat.mul_le_mul_right x h5
    rcases hdvd with hd | hd
    · exact ⟨x, Nat.dvd_of_mod_eq_zero hd, by omega, by omega⟩
    · exact ⟨x + 2, Nat.dvd_of_mod_eq_zero hd, by omega, by omega⟩
  · intro x hle hnd ih h5 hf
    rw [trialDiv, dif_pos hle, if_neg hnd] at hf
    exact ih (by omega) hf
  · intro x hgt h5 hf
    rw [trialDiv, dif_neg hgt] at hf
    exact absurd hf (by decide)

theorem trialDiv_eq_true_no_div (num : Nat) :
    ∀ i, i % 6 = 5 → trialDiv num i = true →
      ∀ d, d ∣ num → i ≤ d → d * d ≤ num → d % 2 = 1 → d % 3 ≠ 0 → False := by
  intro i
  refine trialDiv.induct num
    (fun i => i % 6 = 5 → trialDiv num i = true →
      ∀ d, d ∣ num → i ≤ d → d * d ≤ num → d % 2 = 1 → d % 3 ≠ 0 → False) ?_ ?_ ?_ i
  · intro x hle hdvd hmod ht
    rw [trialDiv, dif_pos hle, if_pos hdvd] at ht
    exact absurd ht (by decide)
  · intro x hle hnd ih hmod ht d hd hxd hdd h2 h3
    rw [trialDiv, dif_pos hle, if_neg hnd] at ht
    have hne1 : d ≠ x := by
      intro hc
      subst hc
      exact hnd (Or.inl (Nat.mod_eq_zero_of_dvd hd))
    have hne2 : d ≠ x + 2 := by
      intro hc
      subst hc
      exact hnd (Or.inr (Nat.mod_eq_zero_of_dvd hd))
    have hstep : x + 6 ≤ d := by omega
    exact ih (by omega) ht d hd hstep hdd h2 h3
  · intro x hgt hmod ht d hd hxd hdd h2 h3
    have : x * x ≤ d * d := Nat.mul_le_mul hxd hxd
    omega

theorem trialDiv_prime_iff (m : Nat) (h5 : 5 ≤ m) (h2 : m % 2 ≠ 0) (h3 : m % 3 ≠ 0) :
    trialDiv m 5 = true ↔ Nat.Prime m := by
  constructor
  · intro ht
    by_contra hnp
    have hpp : Nat.Prime m.minFac := Nat.minFac_prime (by omega)
    have hpd : m.minFac ∣ m := Nat.minFac_dvd m
    have hsq : m.minFac * m.minFac ≤ m := by
      have := Nat.minFac_sq_le_self (by omega) hnp
      rwa [pow_two] at this
    have hp2 : m.minFac ≠ 2 := by
      intro hc
      rw [hc] at hpd
      exact h2 (Nat.mod_eq_zero_of_dvd hpd)
    have hp3 : m.minFac ≠ 3 := by
      intro hc
      rw [hc] at hpd
      exact h3 (Nat.mod_eq_zero_of_dvd hpd)
    have hodd : m.minFac % 2 = 1 := Nat.odd_iff.mp (hpp.odd_of_ne_two hp2)
    have hm3 : m.minFac % 3 ≠ 0 := by
      intro hc
      have hdvd3 : 3 ∣ m.minFac := Nat.dvd_of_mod_eq_zero hc
      rcases hpp.eq_one_or_self_of_dvd 3 hdvd3 with h | h
      · omega
      · exact hp3 h.symm
    have hge5 : 5 ≤ m.minFac := by
      have := hpp.two_le
      omega
    exact trialDiv_eq_true_no_div m 5 (by decide) ht m.minFac hpd hge5 hsq hodd hm3
  · intro hp
    by_contra ht
    have hf : trialDiv m 5 = false := by
      rcases Bool.eq_false_or_eq_true (trialDiv m 5) with h | h
      · exact absurd h ht
      · exact h
    obtain ⟨d, hdvd, hd2, hdm⟩ := trialDiv_eq_false m 5 (by omega) hf
    rcases hp.eq_one_or_self_of_dvd d hdvd with h | h <;> omega

theorem isPrime_iff (n : Int) : isPrime n = true ↔ (1 < n ∧ Nat.Prime n.toNat) := by
  unfold isPrime
  split_ifs with h1 h2 h3
  · simp only [Bool.false_eq_true, false_iff]
    rintro ⟨ha, _⟩
    omega
  · simp only [true_iff]
    refine ⟨by omega, ?_⟩
    have hn : n = 2 ∨ n = 3 := by omega
    rcases hn with h | h <;> subst h <;> decide
  · simp only [Bool.false_eq_true, false_iff]
    rintro ⟨ha, hp⟩
    have hm4 : 4 ≤ n.toNat := by omega
    have hm23 : n.toNat % 2 = 0 ∨ n.toNat % 3 = 0 := by omega
    rcases hm23 with hm | hm
    · have hdvd : 2 ∣ n.toNat := Nat.dvd_of_mod_eq_zero hm
      rcases hp.eq_one_or_self_of_dvd 2 hdvd with h | h <;> omega
    · have hdvd : 3 ∣ n.toNat := Nat.dvd_of_mod_eq_zero hm
      rcases hp.eq_one_or_self_of_dvd 3 hdvd with h | h <;> omega
  · have hm5 : 5 ≤ n.toNat := by omega
    have hm2 : n.toNat % 2 ≠ 0 := by omega
    have hm3 : n.toNat % 3 ≠ 0 := by omega
    rw [trialDiv_prime_iff n.toNat hm5 hm2 hm3]
    constructor
    · intro hp
      exact ⟨by omega, hp⟩
    · intro hp
      exact hp.2

theorem rowEdges_no_match (N : Nat) :
    ∀ (row : List Int) (j index u D : Nat), j + row.length ≤ N → u < index →
      D = index + N - j →
      ∀ e ∈ rowEdges N N j index row, ¬(e.1 = u ∧ e.2.1 = D) := by
  intro row
  induction row with
  | nil => intro j index u D hlen hu hD e he; simp [rowEdges] at he
  | cons num rest ih =>
    intro j index u D hlen hu hD e he
    simp only [List.length_cons] at hlen
    simp only [rowEdges, List.mem_append] at he
    rcases he with he | he
    · rcases cellEdges_cases N N j index num e he with he | ⟨_, he⟩
      · have hdest := parentEdges_dest N j index num e he
        rintro ⟨h1, h2⟩
        omega
      · subst he
        rintro ⟨h1, h2⟩
        simp only at h1
        omega
    · exact ih (j + 1) (index + 1) u D (by omega) (by omega) (by omega) e he

theorem and_decide_false_right {a b : Prop} [Decidable a] [Decidable b] (h : ¬b) :
    (decide a && decide b) = false := by
  simp [h]

theorem and_decide_false_left {a b : Prop} [Decidable a] [Decidable b] (h : ¬a) :
    (decide a && decide b) = false := by
  simp [h]

theorem bool_eq_false_of_ne_true {b : Bool} (h : ¬b = true) : b = false := by
  rcases Bool.eq_false_or_eq_true b with h2 | h2
  · exact absurd h2 h
  · exact h2

theorem rowEdges_filter_cell_sink (N : Nat) :
    ∀ (row : List Int) (j index k u D : Nat), k < row.length → j + row.length ≤ N →
      2 ≤ N → 2 ≤ index → u = index + k → D = index + N - j →
      (rowEdges N N j index row).filter (fun e => decide (e.1 = u) && decide (e.2.1 = D)) =
        if isPrime (row.getD k 0) = true then [] else [(u, D, (0 : Int))] := by
  intro row
  induction row with
  | nil => intro j index k u D hk; simp at hk
  | cons num rest ih =>
    intro j index k u D hk hlen hN hx hu hD
    simp only [List.length_cons] at hk hlen
    rw [rowEdges, List.filter_append]
    have hparents : (parentEdges N j index num).filter
        (fun e => decide (e.1 = u) && decide (e.2.1 = D)) = [] := by
      apply filter_none
      intro e he
      have hdest := parentEdges_dest N j index num e he
      exact and_decide_false_right (by omega)
    have hcell : cellEdges N N j index num = parentEdges N j index num ++
        (if isPrime num = false then [(index, index + N - j, (0 : Int))] else []) := by
      rw [cellEdges]
      simp
    cases k with
    | zero =>
      have hrest : (rowEdges N N (j + 1) (index + 1) rest).filter
          (fun e => decide (e.1 = u) && decide (e.2.1 = D)) = [] := by
        apply filter_none
        intro e he
        have hnm := rowEdges_no_match N rest (j + 1) (index + 1) u D (by omega) (by omega)
          (by omega) e he
        by_cases h1 : e.1 = u
        · by_cases h2 : e.2.1 = D
          · exact absurd ⟨h1, h2⟩ hnm
          · exact and_decide_false_right h2
        · exact and_decide_false_left h1
      rw [hrest, List.append_nil, hcell, List.filter_append, hparents, List.nil_append]
      simp only [List.getD_cons_zero]
      by_cases hp : isPrime num = true
      · rw [if_pos hp, if_neg (by simp [hp])]
        rfl
      · have hp' : isPrime num = false := bool_eq_false_of_ne_true hp
        rw [if_pos hp', if_neg hp]
        have e1 : index = u := by omega
        have e2 : index + N - j = D := by omega
        subst e1
        subst e2
        simp
    | succ c =>
      have hcellf : (cellEdges N N j index num).filter
          (fun e => decide (e.1 = u) && decide (e.2.1 = D)) = [] := by
        rw [hcell, List.filter_append, hparents, List.nil_append]
        apply filter_none
        intro e he
        split_ifs at he with hpn
        · simp only [List.mem_singleton] at he
          subst he
          exact and_decide_false_left (by simp only; omega)
        · simp at he
      rw [hcellf, List.nil_append]
      rw [ih (j + 1) (index + 1) c u D (by omega) (by omega) hN (by omega)
        (by omega) (by omega)]
      simp

theorem rowsEdges_filter_cell_sink (N : Nat) :
    ∀ (rs : List (List Int)) (i index u D j : Nat), shapeFrom i rs → 2 ≤ i → 2 ≤ index →
      N + 1 = i + rs.length → 1 ≤ rs.length → j < N →
      u = index + (sumLens rs - N) + j → D = index + sumLens rs →
      (rowsEdges N i index rs).filter (fun e => decide (e.1 = u) && decide (e.2.1 = D)) =
        if isPrime ((rs.getD (rs.length - 1) []).getD j 0) = true then []
        else [(u, D, (0 : Int))] := by
  intro rs
  induction rs with
  | nil =>
    intro i index u D j hs hi hx hN hpos hj hu hD
    simp at hpos
  | cons row rest ih =>
    intro i index u D j hs hi hx hN hpos hj hu hD
    rcases (shapeFrom_cons i row rest).1 hs with ⟨hlen, hrest⟩
    simp only [List.length_cons] at hN
    rw [sumLens_cons] at hu hD
    rw [rowsEdges, List.filter_append]
    rcases Nat.eq_zero_or_pos rest.length with hr0 | hrpos
    · have hrnil : rest = [] := List.length_eq_zero.mp hr0
      subst hrnil
      have hiN : i = N := by omega
      have hsum0 : sumLens ([] : List (List Int)) = 0 := rfl
      rw [hsum0] at hu hD
      have hempty : rowsEdges N (i + 1) (index + row.length) ([] : List (List Int)) = [] := rfl
      rw [hempty]
      simp only [List.filter_nil, List.append_nil]
      rw [hiN] at hlen
      rw [hiN]
      rw [rowEdges_filter_cell_sink N row 0 index j u D (by omega) (by omega) (by omega) hx
        (by omega) (by omega)]
      simp
    · have hiN : i ≠ N := by omega
      have hsumge : N ≤ sumLens rest := by
        have h1 := sumLens_shape rest (i + 1) (by omega) hrest
        have h2 : i + 1 - 1 = i := by omega
        rw [h2] at h1
        have h3 : i + rest.length = N := by omega
        rw [h3] at h1
        have h4 : NSum (N - 1) + N = NSum N := (NSum_pred N (by omega)).symm
        have h5 : NSum i ≤ NSum (N - 1) := NSum_mono i (N - 1) (by omega)
        omega
      have hrowf : (rowEdges N i 0 index row).filter
          (fun e => decide (e.1 = u) && decide (e.2.1 = D)) = [] := by
        apply filter_none
        intro e he
        have := rowEdges_dest_ub_strict N i hiN row 0 index e he
        exact and_decide_false_right (by omega)
      rw [hrowf, List.nil_append]
      rw [ih (i + 1) (index + row.length) u D j hrest (by omega) (by omega) (by omega)
        (by omega) hj (by omega) (by omega)]
      have hlen2 : (row :: rest).length - 1 = (rest.length - 1) + 1 := by
        simp only [List.length_cons]
        omega
      rw [hlen2, List.getD_cons_succ]

theorem readInput_filter_cell_sink (r1 : List Int) (rest : List (List Int)) (j : Nat)
    (hshape : pyramidShape (r1 :: rest)) (hp : isPrime r1.headI = false)
    (hN2 : 1 ≤ rest.length) (hj : j < rest.length + 1) :
    (readInput (r1 :: rest)).edges.filter
      (fun e => decide (e.1 = vertexId (rest.length + 1) j) &&
        decide (e.2.1 = NSum (rest.length + 1) + 1)) =
      if isPrime (((r1 :: rest).getD rest.length []).getD j 0) = true then []
      else [(vertexId (rest.length + 1) j, NSum (rest.length + 1) + 1, (0 : Int))] := by
  rw [readInput_edges, if_neg (by simp [hp])]
  rcases (shapeFrom_cons 1 r1 rest).1 hshape with ⟨hr1, hrest⟩
  have hv : vertexId (rest.length + 1) j = NSum rest.length + 1 + j := by
    simp [vertexId]
  have hsl : 1 + sumLens rest = NSum (rest.length + 1) := by
    have h1 := sumLens_shape rest 2 (by omega) hrest
    have h2 : NSum (2 - 1) = 1 := by simp [NSum]
    rw [h2] at h1
    have h3 : 2 - 1 + rest.length = rest.length + 1 := by omega
    rw [h3] at h1
    exact h1
  have hNS : NSum (rest.length + 1) = NSum rest.length + (rest.length + 1) :=
    NSum_pred (rest.length + 1) (by omega)
  have hNge : rest.length ≤ NSum rest.length := NSum_ge rest.length
  rw [List.filter_cons]
  have hhead : (decide ((0, 1, -r1.headI).1 = vertexId (rest.length + 1) j) &&
      decide ((0, 1, -r1.headI).2.1 = NSum (rest.length + 1) + 1)) = false := by
    apply and_decide_false_left
    simp only
    omega
  rw [hhead]
  simp only [Bool.false_eq_true, if_false]
  rw [rowsEdges_filter_cell_sink (rest.length + 1) rest 2 2 (vertexId (rest.length + 1) j)
    (NSum (rest.length + 1) + 1) j hrest (by omega) (by omega) (by omega) hN2 (by omega)
    (by omega) (by omega)]
  have hlen2 : rest.length = (rest.length - 1) + 1 := by omega
  have hgd : (r1 :: rest).getD rest.length [] = rest.getD (rest.length - 1) [] := by
    conv_lhs => rw [hlen2]
    rw [List.getD_cons_succ]
  rw [hgd]

theorem parentEdges_prime (i j index : Nat) (num : Int) (h : isPrime num = true) :
    parentEdges i j index num = [] := by
  rw [parentEdges, if_neg (by simp [h])]

theorem parentEdges_eq_ifs (i j t : Nat) (v : Int) (hi : 2 ≤ i) (hj : j < i)
    (hp : isPrime v = false) :
    parentEdges i j t v =
      (if 0 < j then [(t - i, t, -v)] else []) ++
        (if j < i - 1 then [(t - i + 1, t, -v)] else []) := by
  rw [parentEdges, if_pos hp]
  by_cases hj0 : j = 0
  · subst hj0
    rw [if_pos rfl, if_neg (by omega), if_pos (by omega)]
    simp
  · by_cases hj1 : j + 1 = i
    · rw [if_neg hj0, if_pos hj1, if_pos (by omega), if_neg (by omega)]
      simp
    · rw [if_neg hj0, if_neg hj1, if_pos (by omega), if_pos (by omega)]
      simp

theorem maximumSum_single_row (v : Int) (hp : isPrime v = false) (hv : -2147483647 < v) :
    maximumSum (readInput [[v]]) = some v := by
  have hIM : INT_MAX = 2147483647 := rfl
  have hg : readInput [[v]] = ⟨3, [(0, 1, -v)]⟩ := by
    simp [readInput, processRows, addEdge, hp, NSum]
  rw [hg]
  have htopo : topologicalSort (⟨3, [(0, 1, -v)]⟩ : DAG) = [2, 0, 1] := rfl
  have hrange : (List.range ((⟨3, [(0, 1, -v)]⟩ : DAG).vertexAmount)).reverse = [2, 1, 0] := rfl
  unfold maximumSum relaxAll
  rw [htopo, hrange]
  simp only [List.foldl_cons, List.foldl_nil]
  have h2 : relaxVertex (⟨3, [(0, 1, -v)]⟩ : DAG) initSum 2 = initSum := by
    rw [relaxVertex, if_pos]
    rfl
  rw [h2]
  have h0 : relaxVertex (⟨3, [(0, 1, -v)]⟩ : DAG) initSum 0 = Function.update initSum 1 (-v) := by
    rw [relaxVertex, if_neg (by decide)]
    have hE0 : edgeList (⟨3, [(0, 1, -v)]⟩ : DAG) 0 = [(1, -v)] := rfl
    rw [hE0]
    simp only [List.foldl_cons, List.foldl_nil]
    have hc : initSum (1, -v).1 > initSum 0 + (1, -v).2 := by
      show initSum 1 > initSum 0 + -v
      have e1 : initSum 1 = INT_MAX := rfl
      have e0 : initSum 0 = 0 := rfl
      rw [e1, e0, hIM]
      omega
    rw [if_pos hc]
    have : initSum 0 + (1, -v).2 = -v := by
      show initSum 0 + -v = -v
      simp [initSum]
    rw [this]
  rw [h0]
  have h1 : relaxVertex (⟨3, [(0, 1, -v)]⟩ : DAG) (Function.update initSum 1 (-v)) 1
      = Function.update initSum 1 (-v) := by
    rw [relaxVertex]
    have hE1 : edgeList (⟨3, [(0, 1, -v)]⟩ : DAG) 1 = [] := rfl
    rw [hE1]
    simp only [List.foldl_nil]
    split <;> rfl
  rw [h1]
  have hs2 : Function.update initSum 1 (-v) 2 = INT_MAX := by
    rw [Function.update_noteq (by omega)]
    rfl
  have hs1 : Function.update initSum 1 (-v) 1 = -v := Function.update_same 1 (-v) initSum
  rw [extractSum, if_neg (fun hne => hne hs2)]
  rw [extractSum, if_pos (by rw [hs1, hIM]; omega)]
  rw [hs1, neg_neg]

theorem filter_none_rev (p : Nat × Nat × Int → Bool) :
    ∀ l : List (Nat × Nat × Int), l.filter p = [] → ∀ e ∈ l, p e = false := by
  intro l
  induction l with
  | nil => intro _ e he; simp at he
  | cons a t ih =>
    intro h e he
    rw [List.filter_cons] at h
    rcases Bool.eq_false_or_eq_true (p a) with hpa | hpa
    · rw [hpa] at h
      simp at h
    · rw [hpa] at h
      simp only [Bool.false_eq_true, if_false] at h
      rcases List.mem_cons.mp he with h2 | h2
      · subst h2
        exact hpa
      · exact ih h e h2

/-- C1: the claim says a prime row-1 value makes the solver return `none`; in
the code `sum[0]` is initialized to `0`, so the downward scan always finds a
finite entry and the program prints "Maximum Sum: 0" instead.  The pyramid
`[[2],[4,4]]` has the prime apex `2`, yet the solver returns `some 0`, not
`none`. -/
theorem C1_counterexample_prime_apex :
    isPrime 2 = true ∧ maximumSum (readInput [[2], [4, 4]]) = some 0 ∧
      some (0 : Int) ≠ (none : Option Int) := by decide

/-- C1 (amended): for every pyramid whose row-1 value is prime, the solver
reports maximum sum `0` (the source vertex's own entry), never `none`,
regardless of the deeper rows. -/
theorem C1_prime_apex_reports_zero (r1 : List Int) (rest : List (List Int))
    (hp : isPrime r1.headI = true) :
    maximumSum (readInput (r1 :: rest)) = some 0 := by
  apply maximumSum_no_source_edges
  · rw [readInput_vertexAmount]
    omega
  · have h := readInput_edges r1 rest
    rw [if_pos hp] at h
    simp [edgeList, h]

/-- Witness for C1's amended theorem at the pyramid `[[2],[4,4]]`. -/
theorem C1_prime_apex_reports_zero_witness :
    isPrime (([2] : List Int).headI) = true ∧ maximumSum (readInput [[2], [4, 4]]) = some 0 :=
  ⟨by decide, C1_prime_apex_reports_zero [2] [[4, 4]] (by decide)⟩

/-- C2: on the pyramid `[[4],[1,6],[2,8,3]]`, where `2` and `3` are prime and
`4, 1, 6, 8` are not, the solver returns the maximum sum `18 = 4 + 6 + 8`. -/
theorem C2_concrete_pyramid :
    isPrime 2 = true ∧ isPrime 3 = true ∧ isPrime 4 = false ∧ isPrime 1 = false ∧
      isPrime 6 = false ∧ isPrime 8 = false ∧
      maximumSum (readInput [[4], [1, 6], [2, 8, 3]]) = some (4 + 6 + 8) := by decide

/-- C3: for every pyramid the extraction scan finds a finite entry at vertex 0
at the latest (`sum[0] = 0` and relaxation never increases entries), so the
"Maximum sum does not exist." branch is unreachable; when the source has no
outgoing edge the program prints `0`. -/
theorem C3_solver_never_none (rows : List (List Int)) :
    maximumSum (readInput rows) ≠ none ∧
      (edgeList (readInput rows) 0 = [] → maximumSum (readInput rows) = some 0) := by
  constructor
  · apply maximumSum_ne_none
    rw [readInput_vertexAmount]
    omega
  · intro h
    apply maximumSum_no_source_edges
    · rw [readInput_vertexAmount]
      omega
    · exact h

/-- Witness for C3 at the pyramid `[[2]]`, whose source has no outgoing edge. -/
theorem C3_solver_never_none_witness :
    edgeList (readInput [[2]]) 0 = [] ∧ maximumSum (readInput [[2]]) = some 0 :=
  ⟨by decide, (C3_solver_never_none [[2]]).2 (by decide)⟩

/-- C4: the claim extends invariant I4 to `N = 1`, but the sink-edge code only
runs for rows `2..N`: in the single-row pyramid `[[4]]` the non-prime bottom
cell (vertex 1) has no edge to the sink (vertex 2); and with a prime apex
(`[[2],[4,4]]`) the builder returns early, so the non-prime bottom value `4`
gets no sink edge either. -/
theorem C4_counterexample_single_row :
    (isPrime 4 = false ∧
      (readInput [[4]]).edges.filter
        (fun e => decide (e.1 = vertexId 1 0) && decide (e.2.1 = NSum 1 + 1)) = []) ∧
    (isPrime 2 = true ∧ (readInput [[2], [4, 4]]).edges = []) := by decide

/-- C4 (amended): for every pyramid with `N ≥ 2` rows and a non-prime row-1
value, a bottom-row position with a non-prime value has exactly one outgoing
zero-weight edge to the sink, and a bottom-row position with a prime value has
none. -/
theorem C4_bottom_row_sink_edges (r1 : List Int) (rest : List (List Int)) (j : Nat) (v : Int)
    (hshape : pyramidShape (r1 :: rest)) (hN : 1 ≤ rest.length)
    (hp : isPrime r1.headI = false) (hj : j < rest.length + 1)
    (hv : ((r1 :: rest).getD rest.length []).getD j 0 = v) :
    (readInput (r1 :: rest)).edges.filter
      (fun e => decide (e.1 = vertexId (rest.length + 1) j) &&
        decide (e.2.1 = NSum (rest.length + 1) + 1)) =
      if isPrime v = true then []
      else [(vertexId (rest.length + 1) j, NSum (rest.length + 1) + 1, (0 : Int))] := by
  rw [readInput_filter_cell_sink r1 rest j hshape hp hN hj, hv]

/-- Witness for C4's amended theorem: in `[[4],[1,6],[2,8,3]]` the bottom
position 1 (value `8`, not prime) has exactly the zero-weight sink edge. -/
theorem C4_bottom_row_sink_edges_witness :
    (readInput [[4], [1, 6], [2, 8, 3]]).edges.filter
      (fun e => decide (e.1 = vertexId 3 1) && decide (e.2.1 = NSum 3 + 1)) =
      [(vertexId 3 1, NSum 3 + 1, (0 : Int))] := by
  have h := C4_bottom_row_sink_edges [4] [[1, 6], [2, 8, 3]] 1 8 (by decide) (by decide)
    (by decide) (by decide) (by decide)
  rw [if_neg (by decide)] at h
  exact h

/-- C5: the claim fails at `v = -2147483647`: there `sum[1] = -v` equals the
`INT_MAX` sentinel, the scan treats vertex 1 as unreached and the program
prints `0`, not `v`. -/
theorem C5_counterexample_sentinel :
    isPrime (-2147483647) = false ∧ maximumSum (readInput [[-2147483647]]) = some 0 ∧
      some (0 : Int) ≠ some (-2147483647 : Int) := by decide

/-- C5 (amended): for every single-row pyramid whose value `v` is not prime
and satisfies `-2147483647 < v` (so `-v` does not collide with the `INT_MAX`
sentinel), the solver outputs exactly `v`. -/
theorem C5_single_row_value (v : Int) (hp : isPrime v = false) (hv : -2147483647 < v) :
    maximumSum (readInput [[v]]) = some v :=
  maximumSum_single_row v hp hv

/-- Witness for C5's amended theorem at `v = 4`. -/
theorem C5_single_row_value_witness :
    isPrime 4 = false ∧ (-2147483647 : Int) < 4 ∧ maximumSum (readInput [[4]]) = some 4 :=
  ⟨by decide, by decide, C5_single_row_value 4 (by decide) (by decide)⟩

/-- C6: the claim says the builder still reads deeper rows after a prime row-1
value; in fact `readInput` returns immediately, so nothing at all is built:
`[[2],[4,4]]` yields no edges, while the same pyramid with apex `4` yields the
full structure (row-2 parent edges and sink edges included). -/
theorem C6_counterexample_early_return :
    isPrime 2 = true ∧ isPrime 4 = false ∧ (readInput [[2], [4, 4]]).edges = [] ∧
      (readInput [[4], [4, 4]]).edges =
        [(0, 1, -4), (1, 2, -4), (2, 4, 0), (1, 3, -4), (3, 4, 0)] := by decide

/-- C6 (amended): when the row-1 value is prime the builder returns at once:
the graph keeps its `NSum + 2` vertices but has no edges at all — deeper rows
are neither read nor connected. -/
theorem C6_prime_apex_builds_nothing (r1 : List Int) (rest : List (List Int))
    (hp : isPrime r1.headI = true) :
    (readInput (r1 :: rest)).edges = [] ∧
      (readInput (r1 :: rest)).vertexAmount = NSum (rest.length + 1) + 2 := by
  constructor
  · rw [readInput_edges, if_pos hp]
  · rw [readInput_vertexAmount]
    rfl

/-- Witness for C6's amended theorem at `[[2],[4,4]]`. -/
theorem C6_prime_apex_builds_nothing_witness :
    (readInput [[2], [4, 4]]).edges = [] ∧
      (readInput [[2], [4, 4]]).vertexAmount = NSum 2 + 2 :=
  C6_prime_apex_builds_nothing [2] [[4, 4]] (by decide)

/-- C7: the claim omits the prime-apex early return: in `[[2],[4,4]]` the
position `(2,0)` holds the non-prime value `4` and invariant I3 promises an
incoming edge from its right parent, yet the builder added no edge at all. -/
theorem C7_counterexample_prime_apex :
    isPrime 2 = true ∧ isPrime 4 = false ∧
      (readInput [[2], [4, 4]]).edges.filter (fun e => decide (e.2.1 = vertexId 2 0)) = [] ∧
      ((1 : Nat), (2 : Nat), (-4 : Int)) ∉ (readInput [[2], [4, 4]]).edges := by decide

/-- C7 (amended): provided the row-1 value is not prime, every row-`i`
(`i ≥ 2`) position `j` with a non-prime value receives exactly the I3 incoming
edges of weight `-value`: one from vertex `index - i` when `j > 0` and one
from vertex `index - i + 1` when `j < i - 1`, in that order. -/
theorem C7_incoming_parent_edges (r1 : List Int) (rest : List (List Int)) (i j : Nat) (v : Int)
    (hshape : pyramidShape (r1 :: rest)) (hp : isPrime r1.headI = false)
    (hi : 2 ≤ i) (hiN : i ≤ rest.length + 1) (hj : j < i)
    (hv : ((r1 :: rest).getD (i - 1) []).getD j 0 = v) (hnp : isPrime v = false) :
    (readInput (r1 :: rest)).edges.filter (fun e => decide (e.2.1 = vertexId i j)) =
      (if 0 < j then [(vertexId i j - i, vertexId i j, -v)] else []) ++
        (if j < i - 1 then [(vertexId i j - i + 1, vertexId i j, -v)] else []) := by
  rw [readInput_filter_dest r1 rest i j hshape hp hi hiN hj, hv,
    parentEdges_eq_ifs i j (vertexId i j) v hi hj hnp]

/-- Witness for C7's amended theorem at `[[4],[1,6],[2,8,3]]`, cell `(3,1)`
(value `8`): incoming edges from both parents. -/
theorem C7_incoming_parent_edges_witness :
    (readInput [[4], [1, 6], [2, 8, 3]]).edges.filter
      (fun e => decide (e.2.1 = vertexId 3 1)) =
      [(vertexId 3 1 - 3, vertexId 3 1, -8), (vertexId 3 1 - 3 + 1, vertexId 3 1, -8)] := by
  have h := C7_incoming_parent_edges [4] [[1, 6], [2, 8, 3]] 3 1 8 (by decide) (by decide)
    (by decide) (by decide) (by decide) (by decide) (by decide)
  rw [if_pos (by decide), if_pos (by decide)] at h
  exact h

/-- C8: every grid cell holding a prime value has in-degree 0 in the built
graph, and its `sum` entry stays `INT_MAX` through any sequence of relaxation
steps, so it never relaxes its successors and stays unreachable from the
source. -/
theorem C8_prime_cell_unreachable (r1 : List Int) (rest : List (List Int)) (i j : Nat) (v : Int)
    (hshape : pyramidShape (r1 :: rest)) (hi : 1 ≤ i) (hiN : i ≤ rest.length + 1) (hj : j < i)
    (hv : ((r1 :: rest).getD (i - 1) []).getD j 0 = v) (hprime : isPrime v = true) :
    (readInput (r1 :: rest)).edges.filter (fun e => decide (e.2.1 = vertexId i j)) = [] ∧
      ∀ l : List Nat,
        (l.foldl (relaxVertex (readInput (r1 :: rest))) initSum) (vertexId i j) = INT_MAX := by
  have hindeg : (readInput (r1 :: rest)).edges.filter
      (fun e => decide (e.2.1 = vertexId i j)) = [] := by
    by_cases hp : isPrime r1.headI = true
    · rw [readInput_edges, if_pos hp]
      rfl
    · have hp' : isPrime r1.headI = false := bool_eq_false_of_ne_true hp
      by_cases hi1 : i = 1
      · exfalso
        subst hi1
        have hj0 : j = 0 := by omega
        subst hj0
        have hh : r1.headI = r1.getD 0 0 := by cases r1 <;> rfl
        have hv2 : r1.getD 0 0 = v := by simpa using hv
        rw [hh, hv2] at hp'
        rw [hp'] at hprime
        exact absurd hprime (by decide)
      · have hi2 : 2 ≤ i := by omega
        rw [readInput_filter_dest r1 rest i j hshape hp' hi2 hiN hj, hv]
        exact parentEdges_prime i j (vertexId i j) v hprime
  refine ⟨hindeg, ?_⟩
  intro l
  have hnd : ∀ e ∈ (readInput (r1 :: rest)).edges, e.2.1 ≠ vertexId i j := by
    intro e he
    have h2 := filter_none_rev (fun e => decide (e.2.1 = vertexId i j))
      (readInput (r1 :: rest)).edges hindeg e he
    simpa using h2
  rw [relaxFold_untouched (readInput (r1 :: rest)) (vertexId i j) hnd l initSum]
  have hne : vertexId i j ≠ 0 := by
    simp only [vertexId]
    omega
  simp [initSum, hne]

/-- Witness for C8 at `[[4],[1,6],[2,8,3]]`, cell `(3,0)` (prime value `2`). -/
theorem C8_prime_cell_unreachable_witness :
    (readInput [[4], [1, 6], [2, 8, 3]]).edges.filter
      (fun e => decide (e.2.1 = vertexId 3 0)) = [] ∧
      ∀ l : List Nat,
        (l.foldl (relaxVertex (readInput [[4], [1, 6], [2, 8, 3]])) initSum) (vertexId 3 0)
          = INT_MAX :=
  C8_prime_cell_unreachable [4] [[1, 6], [2, 8, 3]] 3 0 2 (by decide) (by decide) (by decide)
    (by decide) (by decide) (by decide)

/-- C9: for every pyramid, each edge's source strictly precedes its
destination in the stack-pop order of the DFS topological sort, and every
vertex id below `vertexAmount` occurs in that order exactly once. -/
theorem C9_topological_order (rows : List (List Int)) (hshape : pyramidShape rows) :
    (∀ e ∈ (readInput rows).edges,
      (topologicalSort (readInput rows)).indexOf e.1 <
        (topologicalSort (readInput rows)).indexOf e.2.1) ∧
      ∀ v < (readInput rows).vertexAmount, (topologicalSort (readInput rows)).count v = 1 := by
  have hmono := readInput_monotone rows hshape
  obtain ⟨hnd, hmem, hok⟩ := topologicalSort_spec (readInput rows) hmono
  constructor
  · intro e he
    apply StackOK_before (readInput rows) (topologicalSort (readInput rows)) hok hnd e he
    have h1 := hmono e he
    exact (hmem e.1).2 (by omega)
  · intro v hv
    exact List.count_eq_one_of_mem hnd ((hmem v).2 hv)

/-- Witness for C9 at the pyramid `[[4],[1,6],[2,8,3]]`. -/
theorem C9_topological_order_witness :
    (∀ e ∈ (readInput [[4], [1, 6], [2, 8, 3]]).edges,
      (topologicalSort (readInput [[4], [1, 6], [2, 8, 3]])).indexOf e.1 <
        (topologicalSort (readInput [[4], [1, 6], [2, 8, 3]])).indexOf e.2.1) ∧
      ∀ v < (readInput [[4], [1, 6], [2, 8, 3]]).vertexAmount,
        (topologicalSort (readInput [[4], [1, 6], [2, 8, 3]])).count v = 1 :=
  C9_topological_order [[4], [1, 6], [2, 8, 3]] (by decide)

/-- C10: `isPrime` agrees with mathematical primality: `isPrime n` is `true`
iff `n > 1` and `n` (as a natural number) is prime — so values `≤ 1` are
rejected, `2` and `3` accepted, multiples of 2 or 3 rejected, and the `6k±1`
trial division decides the rest. -/
theorem C10_isPrime_correct (n : Int) : isPrime n = true ↔ (1 < n ∧ Nat.Prime n.toNat) :=
  isPrime_iff n
